import Mathlib

/-!
Verification of `src/majority_element.h` — a Boyer-Moore majority-vote
algorithm over iterator ranges, together with a sorted-range majority check.

Shallow embedding: a range `[begin, end)` is a `List α`; an iterator into it
is a `Nat` index, and the one-past-the-end sentinel `end` is `l.length`.
Dereferencing `*it` at index `i` is `l.getD i default`; the development proves
(claim about dereference safety) that the `default` fallback is never what the
code actually reads. A comparator is an `α → α → Bool` function, matching the
C++ functor returning `bool`.
-/

namespace MajorityElement

variable {α : Type} [Inhabited α]

/-- One iteration of the scanning loop of `majority_element`
(majority_element.h lines 52–67): the state is the pair
`(candidate, confidence)`; `i` is the index of the current element `*it`.
If `confidence == 0` the candidate is reset to the current position and
`confidence` becomes 1; otherwise `comp(*candidate, *it)` decides between
incrementing and decrementing `confidence`. -/
def bmStep (l : List α) (comp : α → α → Bool) (s : Nat × Nat) (i : Nat) : Nat × Nat :=
  if s.2 = 0 then (i, 1)
  else if comp (l.getD s.1 default) (l.getD i default) then (s.1, s.2 + 1)
  else (s.1, s.2 - 1)

/-- The scanning loop of `majority_element` run over the first `k` elements:
starting from `candidate = end` (here the index `l.length`) and
`confidence = 0` (lines 48–49), fold `bmStep` over positions `0, …, k-1`. -/
def bmScanK (l : List α) (comp : α → α → Bool) (k : Nat) : Nat × Nat :=
  (List.range k).foldl (bmStep l comp) (l.length, 0)

/-- The candidate produced by the full scanning pass (the value of
`candidate` after the first loop of `majority_element`). -/
def bmVote (l : List α) (comp : α → α → Bool) : Nat :=
  (bmScanK l comp l.length).1

/-- The confirmation pass of `majority_element` (lines 70–78): one more
traversal accumulating `(nmatches, ntotal)` from `(0, 0)`, incrementing
`nmatches` when `comp(*candidate, *it)` holds and `ntotal` always. -/
def verifyPass (l : List α) (comp : α → α → Bool) (c : Nat) : Nat × Nat :=
  l.foldl (fun s b => (if comp (l.getD c default) b then s.1 + 1 else s.1, s.2 + 1)) (0, 0)

/-- `majority_element(begin, end, comp)` (majority_element.h lines 43–84):
run the Boyer-Moore scan to obtain `candidate`, run the confirmation pass,
and return `candidate` if `ntotal / 2 < nmatches`, else the sentinel `end`
(modelled as the index `l.length`). -/
def majority_element (l : List α) (comp : α → α → Bool) : Nat :=
  let candidate := bmVote l comp
  let counts := verifyPass l comp candidate
  if counts.2 / 2 < counts.1 then candidate else l.length

/-- `std::equal_to<val_t>()`: the default equality comparator used by the
two-argument overload of `majority_element` (lines 100–104). -/
def std_equal_to [DecidableEq α] : α → α → Bool :=
  fun a b => decide (a = b)

/-- The two-argument overload `majority_element(begin, end)` (lines 100–104),
which delegates to the comparator form with `std::equal_to<val_t>()`. -/
def majority_element_default [DecidableEq α] (l : List α) : Nat :=
  majority_element l std_equal_to

/-- The loop of `std::lower_bound(first, last, x, comp)` as specified by the
C++ standard (the reference implementation iterates while the remaining
length `len` is nonzero, probing `mid = first + len/2`: if `comp(*mid, x)`
the search continues in `(mid, first+len)`, else in `[first, mid)`).
The loop always terminates because `len` strictly decreases; we run it with
explicit fuel, and the callers supply fuel `l.length ≥ len`, which is enough
since `len` shrinks by at least one per iteration. -/
def lbLoop (l : List α) (comp : α → α → Bool) (x : α) : Nat → Nat → Nat → Nat
  | 0, first, _ => first
  | fuel + 1, first, len =>
    if len = 0 then first
    else
      let half := len / 2
      let mid := first + half
      if comp (l.getD mid default) x then lbLoop l comp x fuel (mid + 1) (len - half - 1)
      else lbLoop l comp x fuel first half

/-- The loop of `std::upper_bound(first, last, x, comp)` as specified by the
C++ standard: probe `mid = first + len/2`; if `comp(x, *mid)` continue in
`[first, mid)`, else in `(mid, first+len)`. Fuel as in `lbLoop`. -/
def ubLoop (l : List α) (comp : α → α → Bool) (x : α) : Nat → Nat → Nat → Nat
  | 0, first, _ => first
  | fuel + 1, first, len =>
    if len = 0 then first
    else
      let half := len / 2
      let mid := first + half
      if comp x (l.getD mid default) then ubLoop l comp x fuel first half
      else ubLoop l comp x fuel (mid + 1) (len - half - 1)

/-- `std::lower_bound(begin, end, x, comp)` over the whole range. -/
def lower_bound (l : List α) (comp : α → α → Bool) (x : α) : Nat :=
  lbLoop l comp x l.length 0 l.length

/-- `std::upper_bound(begin, end, x, comp)` over the whole range. -/
def upper_bound (l : List α) (comp : α → α → Bool) (x : α) : Nat :=
  ubLoop l comp x l.length 0 l.length

/-- `std::equal_range(begin, end, x, comp)` (called by `is_majority_element`
at line 126), by its standard specification:
`make_pair(lower_bound(begin, end, x, comp), upper_bound(begin, end, x, comp))`. -/
def equal_range (l : List α) (comp : α → α → Bool) (x : α) : Nat × Nat :=
  (lower_bound l comp x, upper_bound l comp x)

/-- `is_majority_element(begin, end, x, comp)` (majority_element.h lines
121–132): compute `equal_range` for `x` and return whether
`std::distance(range.first, range.second) > (std::distance(begin, end) >> 1)`.
`std::distance` yields a signed `ptrdiff_t`, modelled as `Int`; `>> 1` on the
nonnegative range length equals division by two. -/
def is_majority_element (l : List α) (x : α) (comp : α → α → Bool) : Bool :=
  let range := equal_range l comp x
  decide (((range.2 : Int) - (range.1 : Int)) > ((l.length : Int) / 2))

/-- `std::less<val_t>()`: the default ordering comparator used by the
three-argument overload of `is_majority_element` (lines 149–155). -/
def std_less [LinearOrder α] : α → α → Bool :=
  fun a b => decide (a < b)

/-- The three-argument overload `is_majority_element(begin, end, x)` (lines
149–155), which delegates to the comparator form with `std::less<val_t>()`. -/
def is_majority_element_default [LinearOrder α] (l : List α) (x : α) : Bool :=
  is_majority_element l x std_less

/-- The scanning loop with the `size_t confidence` counter modelled as a
mathematical integer (`Int`), so that a wrap-around of the C++ unsigned
counter would show up as a negative value. -/
def bmStepZ (l : List α) (comp : α → α → Bool) (s : Nat × Int) (i : Nat) : Nat × Int :=
  if s.2 = 0 then (i, 1)
  else if comp (l.getD s.1 default) (l.getD i default) then (s.1, s.2 + 1)
  else (s.1, s.2 - 1)

/-- The scanning loop over the first `k` elements with an `Int` confidence
counter, for the wrap-around claim. -/
def bmScanKZ (l : List α) (comp : α → α → Bool) (k : Nat) : Nat × Int :=
  (List.range k).foldl (bmStepZ l comp) (l.length, 0)

/-- The Boyer-Moore loop invariant with respect to a reference value `v`:
after scanning the first `k` elements, writing `m` for the number of
positions among them whose element is `comp`-equal to `v`,
either `confidence = 0` and `2 m ≤ k`, or the candidate is a valid position
`< k` and: if the candidate's element is in `v`'s class then
`2 m ≤ k + confidence`, otherwise `2 m + confidence ≤ k`. -/
def bmInv (l : List α) (comp : α → α → Bool) (v : α) (k : Nat) (s : Nat × Nat) : Prop :=
  (s.2 = 0 → 2 * ((l.take k).countP fun e => comp v e) ≤ k) ∧
  (s.2 ≠ 0 →
     s.1 < k ∧
     (comp v (l.getD s.1 default) = true →
        2 * ((l.take k).countP fun e => comp v e) ≤ k + s.2) ∧
     (comp v (l.getD s.1 default) = false →
        2 * ((l.take k).countP fun e => comp v e) + s.2 ≤ k))

end MajorityElement

namespace MajorityElement

variable {α : Type} [Inhabited α]

theorem bmScanK_zero (l : List α) (comp : α → α → Bool) :
    bmScanK l comp 0 = (l.length, 0) := rfl

theorem bmScanK_succ (l : List α) (comp : α → α → Bool) (k : Nat) :
    bmScanK l comp (k + 1) = bmStep l comp (bmScanK l comp k) k := by
  unfold bmScanK
  rw [List.range_succ, List.foldl_append]
  rfl

theorem bmScanK_fst_lt (l : List α) (comp : α → α → Bool) :
    ∀ k, 0 < k → (bmScanK l comp k).1 < k := by
  intro k hk
  induction k with
  | zero => omega
  | succ n ih =>
    rw [bmScanK_succ]
    unfold bmStep
    by_cases h0 : (bmScanK l comp n).2 = 0
    · rw [if_pos h0]
      exact Nat.lt_succ_self n
    · have hn : 0 < n := by
        by_contra hc
        have hzero : n = 0 := by omega
        subst hzero
        exact h0 (by rw [bmScanK_zero])
      have hlt := ih hn
      rw [if_neg h0]
      by_cases hcmp : comp (l.getD (bmScanK l comp n).1 default)
          (l.getD n default) = true
      · rw [if_pos hcmp]
        exact Nat.lt_succ_of_lt hlt
      · rw [if_neg hcmp]
        exact Nat.lt_succ_of_lt hlt

theorem bmVote_lt_length (l : List α) (comp : α → α → Bool) (h : 0 < l.length) :
    bmVote l comp < l.length :=
  bmScanK_fst_lt l comp l.length h

theorem verifyPass_eq (l : List α) (comp : α → α → Bool) (c : Nat) :
    verifyPass l comp c = ((l.countP fun b => comp (l.getD c default) b), l.length) := by
  unfold verifyPass
  suffices h : ∀ (t : List α) (a b : Nat),
      t.foldl (fun s e => (if comp (l.getD c default) e then s.1 + 1 else s.1, s.2 + 1)) (a, b) =
        (a + t.countP (fun e => comp (l.getD c default) e), b + t.length) by
    rw [h l 0 0]
    simp
  intro t
  induction t with
  | nil => intro a b; simp
  | cons hd tl ih =>
    intro a b
    simp only [List.foldl_cons, List.countP_cons, List.length_cons]
    by_cases hc : comp (l.getD c default) hd = true
    · rw [if_pos hc, ih, if_pos hc]
      simp only [Prod.mk.injEq]
      constructor <;> omega
    · rw [if_neg hc, ih, if_neg hc]
      simp only [Prod.mk.injEq]
      constructor <;> omega

theorem not_eq_true_of_eq_false {b : Bool} (h : b = false) : ¬b = true := by
  simp [h]

theorem take_countP_succ (l : List α) (p : α → Bool) (k : Nat) (hk : k < l.length) :
    (l.take (k + 1)).countP p =
      (l.take k).countP p + if p (l.getD k default) = true then 1 else 0 := by
  rw [List.take_succ, List.countP_append]
  have hsome : l[k]? = some (l.getD k default) := by
    rw [List.getD_eq_getElem l default hk]
    exact List.getElem?_eq_getElem hk
  rw [hsome]
  simp [List.countP_cons]

theorem bmInv_step (l : List α) (comp : α → α → Bool) (v : α)
    (hequiv : Equivalence fun a b => comp a b = true)
    (k : Nat) (hk : k < l.length) (s : Nat × Nat)
    (h : bmInv l comp v k s) : bmInv l comp v (k + 1) (bmStep l comp s k) := by
  obtain ⟨h0, h1⟩ := h
  have hstep := take_countP_succ l (fun e => comp v e) k hk
  unfold bmStep bmInv
  by_cases hc0 : s.2 = 0
  · rw [if_pos hc0]
    constructor
    · intro hq
      exact absurd hq (by simp)
    · intro _
      refine ⟨Nat.lt_succ_self k, ?_, ?_⟩
      · intro hvb
        rw [hstep, if_pos hvb]
        have hb := h0 hc0
        omega
      · intro hvb
        rw [hstep, if_neg (not_eq_true_of_eq_false hvb)]
        have hb := h0 hc0
        omega
  · rw [if_neg hc0]
    obtain ⟨hlt, hT, hF⟩ := h1 hc0
    by_cases hcb : comp (l.getD s.1 default) (l.getD k default) = true
    · rw [if_pos hcb]
      constructor
      · intro hq
        exact absurd hq (by simp)
      · intro _
        refine ⟨Nat.lt_succ_of_lt hlt, ?_, ?_⟩
        · intro hvc
          have hvb : comp v (l.getD k default) = true := hequiv.trans hvc hcb
          rw [hstep, if_pos hvb]
          have hb := hT hvc
          omega
        · intro hvc
          have hvb : comp v (l.getD k default) = false := by
            cases hx : comp v (l.getD k default) with
            | false => rfl
            | true =>
              exact absurd (hequiv.trans hx (hequiv.symm hcb)) (not_eq_true_of_eq_false hvc)
          rw [hstep, if_neg (not_eq_true_of_eq_false hvb)]
          have hb := hF hvc
          omega
    · rw [if_neg hcb]
      by_cases hone : s.2 - 1 = 0
      · constructor
        · intro _
          cases hvc : comp v (l.getD s.1 default) with
          | true =>
            have hvb : comp v (l.getD k default) = false := by
              cases hx : comp v (l.getD k default) with
              | false => rfl
              | true =>
                exact absurd (hequiv.trans (hequiv.symm hvc) hx) hcb
            rw [hstep, if_neg (not_eq_true_of_eq_false hvb)]
            have hb := hT hvc
            omega
          | false =>
            have hb := hF hvc
            rw [hstep]
            by_cases hvb : comp v (l.getD k default) = true
            · rw [if_pos hvb]; omega
            · rw [if_neg hvb]; omega
        · intro hq
          have hq2 : s.2 - 1 ≠ 0 := hq
          omega
      · constructor
        · intro hq
          have hq2 : s.2 - 1 = 0 := hq
          omega
        · intro _
          refine ⟨Nat.lt_succ_of_lt hlt, ?_, ?_⟩
          · intro hvc
            have hvb : comp v (l.getD k default) = false := by
              cases hx : comp v (l.getD k default) with
              | false => rfl
              | true =>
                exact absurd (hequiv.trans (hequiv.symm hvc) hx) hcb
            rw [hstep, if_neg (not_eq_true_of_eq_false hvb)]
            have hb := hT hvc
            omega
          · intro hvc
            have hb := hF hvc
            rw [hstep]
            by_cases hvb : comp v (l.getD k default) = true
            · rw [if_pos hvb]; omega
            · rw [if_neg hvb]; omega

theorem bmInv_scanK (l : List α) (comp : α → α → Bool) (v : α)
    (hequiv : Equivalence fun a b => comp a b = true) :
    ∀ k, k ≤ l.length → bmInv l comp v k (bmScanK l comp k) := by
  intro k
  induction k with
  | zero =>
    intro _
    constructor
    · intro _
      simp
    · intro hq
      exact absurd rfl hq
  | succ n ih =>
    intro hk
    rw [bmScanK_succ]
    exact bmInv_step l comp v hequiv n (by omega) _ (ih (by omega))

theorem majority_element_eq_ite (l : List α) (comp : α → α → Bool) :
    majority_element l comp =
      if l.length / 2 < (l.countP fun b => comp (l.getD (bmVote l comp) default) b)
      then bmVote l comp else l.length := by
  show (if (verifyPass l comp (bmVote l comp)).2 / 2 < (verifyPass l comp (bmVote l comp)).1
        then bmVote l comp else l.length) = _
  rw [verifyPass_eq]

omit [Inhabited α] in
theorem std_equal_to_equivalence [DecidableEq α] :
    Equivalence fun a b : α => std_equal_to a b = true := by
  constructor
  · intro a
    simp [std_equal_to]
  · intro a b h
    simp [std_equal_to] at h ⊢
    exact h.symm
  · intro a b c h1 h2
    simp [std_equal_to] at h1 h2 ⊢
    exact h1.trans h2

/-- C1: for every finite sequence and every equality comparator (an
equivalence, which is what an equality comparator is), if some value `v` is
`comp`-equal to strictly more than half of the sequence's elements, then
`majority_element` does not return the end sentinel but a position inside the
sequence whose element is equal to `v`. -/
theorem majority_element_finds_majority (l : List α) (comp : α → α → Bool) (v : α)
    (hequiv : Equivalence fun a b => comp a b = true)
    (hmaj : l.length < 2 * l.countP fun e => comp v e) :
    majority_element l comp ≠ l.length ∧
    majority_element l comp < l.length ∧
    comp v (l.getD (majority_element l comp) default) = true := by
  have hcle := List.countP_le_length (fun e => comp v e) (l := l)
  obtain ⟨h0, h1⟩ := bmInv_scanK l comp v hequiv l.length (Nat.le_refl _)
  rw [List.take_length] at h0 h1
  have hs2 : (bmScanK l comp l.length).2 ≠ 0 := by
    intro hzero
    have hb := h0 hzero
    omega
  obtain ⟨hlt, hT, hF⟩ := h1 hs2
  have hvc : comp v (l.getD (bmScanK l comp l.length).1 default) = true := by
    cases hx : comp v (l.getD (bmScanK l comp l.length).1 default) with
    | true => rfl
    | false =>
      have hb := hF hx
      omega
  have hmono : (l.countP fun e => comp v e) ≤
      l.countP fun b => comp (l.getD (bmVote l comp) default) b :=
    List.countP_mono_left fun a _ ha => hequiv.trans (hequiv.symm hvc) ha
  have hthr : l.length / 2 < l.countP fun b => comp (l.getD (bmVote l comp) default) b := by
    omega
  rw [majority_element_eq_ite, if_pos hthr]
  have hltv : bmVote l comp < l.length := hlt
  refine ⟨by omega, hltv, hvc⟩

theorem majority_element_finds_majority_witness :
    ([1, 1, 2] : List Int).length <
      2 * (([1, 1, 2] : List Int).countP fun e => std_equal_to (1 : Int) e) ∧
    majority_element ([1, 1, 2] : List Int) std_equal_to ≠ ([1, 1, 2] : List Int).length ∧
    majority_element ([1, 1, 2] : List Int) std_equal_to < ([1, 1, 2] : List Int).length ∧
    std_equal_to (1 : Int)
      (([1, 1, 2] : List Int).getD (majority_element ([1, 1, 2] : List Int) std_equal_to)
        default) = true := by
  have h := majority_element_finds_majority ([1, 1, 2] : List Int) std_equal_to 1
    std_equal_to_equivalence (by decide)
  exact ⟨by decide, h.1, h.2.1, h.2.2⟩

/-- C2: for every finite sequence in which no element occurs (per the
comparator) at strictly more than `length/2` positions, `majority_element`
returns the end-of-sequence sentinel (the index `l.length`). -/
theorem majority_element_no_majority (l : List α) (comp : α → α → Bool)
    (hno : ∀ i, i < l.length →
      (l.countP fun e => comp (l.getD i default) e) ≤ l.length / 2) :
    majority_element l comp = l.length := by
  have hnot : ¬ (l.length / 2 < l.countP fun b => comp (l.getD (bmVote l comp) default) b) := by
    rcases Nat.eq_zero_or_pos l.length with h0 | hpos
    · have hcle := List.countP_le_length
        (fun b => comp (l.getD (bmVote l comp) default) b) (l := l)
      omega
    · have hb := hno (bmVote l comp) (bmVote_lt_length l comp hpos)
      omega
  rw [majority_element_eq_ite, if_neg hnot]

theorem majority_element_no_majority_witness :
    (∀ i, i < ([1, 2] : List Int).length →
      (([1, 2] : List Int).countP fun e =>
        std_equal_to (([1, 2] : List Int).getD i default) e) ≤ ([1, 2] : List Int).length / 2) ∧
    majority_element ([1, 2] : List Int) std_equal_to = ([1, 2] : List Int).length := by
  have hno : ∀ i, i < ([1, 2] : List Int).length →
      (([1, 2] : List Int).countP fun e =>
        std_equal_to (([1, 2] : List Int).getD i default) e) ≤ ([1, 2] : List Int).length / 2 := by
    intro i hi
    have hi2 : i < 2 := by simpa using hi
    interval_cases i <;> decide
  exact ⟨hno, majority_element_no_majority ([1, 2] : List Int) std_equal_to hno⟩

/-- C5: `majority_element` on the empty sequence returns the end sentinel as
an ordinary result (the model is a total function, so no exception can be
raised); moreover the confirmation pass computes `nmatches = 0` and
`ntotal = 0`, and the condition `0/2 < 0` is false. -/
theorem majority_element_empty (comp : α → α → Bool) :
    majority_element ([] : List α) comp = ([] : List α).length ∧
    verifyPass ([] : List α) comp (bmVote ([] : List α) comp) = (0, 0) :=
  ⟨rfl, rfl⟩

/-- C6: the default-comparator overloads delegate to the explicit-comparator
forms: `majority_element(begin, end)` equals
`majority_element(begin, end, std::equal_to<value_type>())`, and
`is_majority_element(begin, end, x)` equals
`is_majority_element(begin, end, x, std::less<value_type>())`. -/
theorem default_overloads_delegate [DecidableEq α] [LinearOrder α] (l : List α) (x : α) :
    majority_element_default l = majority_element l std_equal_to ∧
    is_majority_element_default l x = is_majority_element l x std_less :=
  ⟨rfl, rfl⟩

/-- C7: the end sentinel is never dereferenced: at the start of the scan the
confidence is `0` (so the `comp(*candidate, *it)` branch, the only
dereference of `candidate` inside the loop, is not taken); whenever the
confidence is nonzero after `k` iterations the candidate is a valid position
`< k`; and when the range is non-empty the candidate dereferenced by the
verification pass is a valid position `< length`. -/
theorem sentinel_never_dereferenced (l : List α) (comp : α → α → Bool) :
    (bmScanK l comp 0).2 = 0 ∧
    (∀ k, (bmScanK l comp k).2 ≠ 0 → (bmScanK l comp k).1 < k) ∧
    (0 < l.length → bmVote l comp < l.length) := by
  refine ⟨rfl, ?_, bmVote_lt_length l comp⟩
  intro k hk
  cases k with
  | zero => exact absurd rfl hk
  | succ n => exact bmScanK_fst_lt l comp (n + 1) (Nat.succ_pos n)

theorem sentinel_never_dereferenced_witness :
    (bmScanK ([7] : List Int) std_equal_to 1).2 ≠ 0 ∧
    (bmScanK ([7] : List Int) std_equal_to 1).1 < 1 ∧
    0 < ([7] : List Int).length ∧
    bmVote ([7] : List Int) std_equal_to < ([7] : List Int).length := by
  refine ⟨by decide, ?_, by decide, ?_⟩
  · exact (sentinel_never_dereferenced ([7] : List Int) std_equal_to).2.1 1 (by decide)
  · exact (sentinel_never_dereferenced ([7] : List Int) std_equal_to).2.2 (by decide)

theorem bmScanKZ_eq (l : List α) (comp : α → α → Bool) :
    ∀ k, bmScanKZ l comp k = ((bmScanK l comp k).1, ((bmScanK l comp k).2 : Int)) := by
  intro k
  induction k with
  | zero => rfl
  | succ n ih =>
    rw [show bmScanKZ l comp (n + 1) = bmStepZ l comp (bmScanKZ l comp n) n from by
          unfold bmScanKZ
          rw [List.range_succ, List.foldl_append]
          rfl,
        bmScanK_succ, ih]
    rcases hp : bmScanK l comp n with ⟨c, f⟩
    unfold bmStepZ bmStep
    by_cases h0 : f = 0
    · subst h0
      norm_num
    · rw [if_neg (show ¬((c, (f : Int)).2 = 0) from by simpa using h0),
          if_neg (show ¬((c, f).2 = 0) from h0)]
      by_cases hcmp : comp (l.getD c default) (l.getD n default) = true
      · rw [if_pos hcmp, if_pos hcmp]
        simp
      · rw [if_neg hcmp, if_neg hcmp]
        simp only [Prod.mk.injEq]
        exact ⟨by trivial, by omega⟩

/-- C8: modelling the `size_t confidence` counter as a mathematical integer,
the counter stays nonnegative at every point of the traversal and the
integer-counter scan computes exactly the same states as the `Nat`-counter
scan: the decrement happens only in the branch where the counter is nonzero,
so the unsigned counter never wraps around below zero. -/
theorem confidence_never_wraps (l : List α) (comp : α → α → Bool) :
    ∀ k, 0 ≤ (bmScanKZ l comp k).2 ∧
      bmScanKZ l comp k = ((bmScanK l comp k).1, ((bmScanK l comp k).2 : Int)) := by
  intro k
  refine ⟨?_, bmScanKZ_eq l comp k⟩
  rw [bmScanKZ_eq l comp k]
  exact Int.natCast_nonneg _

/-- C9: whenever `majority_element` returns a value different from the end
sentinel, the returned value is a position inside the half-open range, i.e.
an index `< length` pointing at an element of the input sequence. -/
theorem result_position_in_range (l : List α) (comp : α → α → Bool)
    (h : majority_element l comp ≠ l.length) :
    majority_element l comp < l.length := by
  rw [majority_element_eq_ite] at h ⊢
  by_cases hthr : l.length / 2 < (l.countP fun b => comp (l.getD (bmVote l comp) default) b)
  · rw [if_pos hthr] at h ⊢
    rcases Nat.eq_zero_or_pos l.length with h0 | hpos
    · have hv : bmVote l comp = l.length := by
        unfold bmVote
        rw [h0, bmScanK_zero]
        exact h0
      exact absurd hv h
    · exact bmVote_lt_length l comp hpos
  · rw [if_neg hthr] at h
    exact absurd rfl h

theorem result_position_in_range_witness :
    majority_element ([7] : List Int) std_equal_to ≠ ([7] : List Int).length ∧
    majority_element ([7] : List Int) std_equal_to < ([7] : List Int).length :=
  ⟨by decide, result_position_in_range ([7] : List Int) std_equal_to (by decide)⟩

/-- C10: for every queried value `x` and every comparator,
`is_majority_element` on an empty range returns `false`: the equal range is
empty and the condition `0 > 0` is false. -/
theorem is_majority_element_empty_false (x : α) (comp : α → α → Bool) :
    is_majority_element ([] : List α) x comp = false := rfl

theorem lbLoop_correct (l : List α) (comp : α → α → Bool) (x : α) (N : Nat) :
    ∀ fuel first len, len ≤ fuel → first ≤ N → N ≤ first + len →
    (∀ i, first ≤ i → i < first + len → (comp (l.getD i default) x = true ↔ i < N)) →
    lbLoop l comp x fuel first len = N := by
  intro fuel
  induction fuel with
  | zero =>
    intro first len hlf h1 h2 _
    have hl0 : len = 0 := by omega
    subst hl0
    show first = N
    omega
  | succ fuel ih =>
    intro first len hlf h1 h2 hrange
    show (if len = 0 then first
          else if comp (l.getD (first + len / 2) default) x
               then lbLoop l comp x fuel (first + len / 2 + 1) (len - len / 2 - 1)
               else lbLoop l comp x fuel first (len / 2)) = N
    by_cases hl0 : len = 0
    · rw [if_pos hl0]
      omega
    · rw [if_neg hl0]
      by_cases hc : comp (l.getD (first + len / 2) default) x = true
      · rw [if_pos hc]
        have hmidN : first + len / 2 < N := (hrange _ (by omega) (by omega)).mp hc
        apply ih
        · omega
        · omega
        · omega
        · intro i hi1 hi2
          exact hrange i (by omega) (by omega)
      · rw [if_neg hc]
        have hNmid : N ≤ first + len / 2 := by
          by_contra hcon
          exact hc ((hrange _ (by omega) (by omega)).mpr (by omega))
        apply ih
        · omega
        · exact h1
        · omega
        · intro i hi1 hi2
          exact hrange i hi1 (by omega)

theorem ubLoop_correct (l : List α) (comp : α → α → Bool) (x : α) (M : Nat) :
    ∀ fuel first len, len ≤ fuel → first ≤ M → M ≤ first + len →
    (∀ i, first ≤ i → i < first + len → (comp x (l.getD i default) = true ↔ M ≤ i)) →
    ubLoop l comp x fuel first len = M := by
  intro fuel
  induction fuel with
  | zero =>
    intro first len hlf h1 h2 _
    have hl0 : len = 0 := by omega
    subst hl0
    show first = M
    omega
  | succ fuel ih =>
    intro first len hlf h1 h2 hrange
    show (if len = 0 then first
          else if comp x (l.getD (first + len / 2) default)
               then ubLoop l comp x fuel first (len / 2)
               else ubLoop l comp x fuel (first + len / 2 + 1) (len - len / 2 - 1)) = M
    by_cases hl0 : len = 0
    · rw [if_pos hl0]
      omega
    · rw [if_neg hl0]
      by_cases hc : comp x (l.getD (first + len / 2) default) = true
      · rw [if_pos hc]
        have hMmid : M ≤ first + len / 2 := (hrange _ (by omega) (by omega)).mp hc
        apply ih
        · omega
        · exact h1
        · omega
        · intro i hi1 hi2
          exact hrange i hi1 (by omega)
      · rw [if_neg hc]
        have hmidM : first + len / 2 < M := by
          by_contra hcon
          exact hc ((hrange _ (by omega) (by omega)).mpr (by omega))
        apply ih
        · omega
        · omega
        · omega
        · intro i hi1 hi2
          exact hrange i (by omega) (by omega)

omit [Inhabited α] in
theorem countP_lt_zero_of_le [LinearOrder α] (x a : α) (t : List α)
    (ha : ∀ e ∈ t, a ≤ e) (hax : ¬a < x) :
    t.countP (fun e => decide (e < x)) = 0 := by
  rw [List.countP_eq_zero]
  intro e he
  simp only [decide_eq_true_eq]
  exact fun hlt => hax (lt_of_le_of_lt (ha e he) hlt)

omit [Inhabited α] in
theorem countP_le_zero_of_lt [LinearOrder α] (x a : α) (t : List α)
    (ha : ∀ e ∈ t, a ≤ e) (hax : ¬a ≤ x) :
    t.countP (fun e => decide (e ≤ x)) = 0 := by
  rw [List.countP_eq_zero]
  intro e he
  simp only [decide_eq_true_eq]
  exact fun hle => hax (le_trans (ha e he) hle)

theorem sorted_lt_count [LinearOrder α] (x : α) :
    ∀ (l : List α), l.Sorted (· ≤ ·) →
    ∀ i, i < l.length →
      (l.getD i default < x ↔ i < l.countP fun e => decide (e < x)) := by
  intro l
  induction l with
  | nil =>
    intro _ i hi
    simp at hi
  | cons a t ih =>
    intro hs i hi
    rw [List.sorted_cons] at hs
    obtain ⟨ha, hst⟩ := hs
    rw [List.countP_cons]
    cases i with
    | zero =>
      show a < x ↔ 0 < t.countP (fun e => decide (e < x)) + if decide (a < x) = true then 1 else 0
      by_cases hax : a < x
      · rw [if_pos (by simpa using hax)]
        constructor
        · intro _
          omega
        · intro _
          exact hax
      · rw [if_neg (by simpa using hax), countP_lt_zero_of_le x a t ha hax]
        constructor
        · intro h
          exact absurd h hax
        · intro h
          exact absurd h (by omega)
    | succ j =>
      have hj : j < t.length := by simpa using hi
      show t.getD j default < x ↔
        j + 1 < t.countP (fun e => decide (e < x)) + if decide (a < x) = true then 1 else 0
      by_cases hax : a < x
      · rw [if_pos (by simpa using hax), ih hst j hj]
        omega
      · rw [if_neg (by simpa using hax), countP_lt_zero_of_le x a t ha hax]
        have hmem : t.getD j default ∈ t := by
          rw [List.getD_eq_getElem t default hj]
          exact List.getElem_mem hj
        constructor
        · intro hlt
          exact absurd (lt_of_le_of_lt (ha _ hmem) hlt) hax
        · intro h
          exact absurd h (by omega)

theorem sorted_le_count [LinearOrder α] (x : α) :
    ∀ (l : List α), l.Sorted (· ≤ ·) →
    ∀ i, i < l.length →
      (x < l.getD i default ↔ (l.countP fun e => decide (e ≤ x)) ≤ i) := by
  intro l
  induction l with
  | nil =>
    intro _ i hi
    simp at hi
  | cons a t ih =>
    intro hs i hi
    rw [List.sorted_cons] at hs
    obtain ⟨ha, hst⟩ := hs
    rw [List.countP_cons]
    cases i with
    | zero =>
      show x < a ↔ t.countP (fun e => decide (e ≤ x)) + (if decide (a ≤ x) = true then 1 else 0) ≤ 0
      by_cases hax : a ≤ x
      · rw [if_pos (by simpa using hax)]
        constructor
        · intro h
          exact absurd h (not_lt.mpr hax)
        · intro h
          exact absurd h (by omega)
      · rw [if_neg (by simpa using hax), countP_le_zero_of_lt x a t ha hax]
        constructor
        · intro _
          omega
        · intro _
          exact not_le.mp hax
    | succ j =>
      have hj : j < t.length := by simpa using hi
      show x < t.getD j default ↔
        t.countP (fun e => decide (e ≤ x)) + (if decide (a ≤ x) = true then 1 else 0) ≤ j + 1
      by_cases hax : a ≤ x
      · rw [if_pos (by simpa using hax), ih hst j hj]
        omega
      · rw [if_neg (by simpa using hax), countP_le_zero_of_lt x a t ha hax]
        have hmem : t.getD j default ∈ t := by
          rw [List.getD_eq_getElem t default hj]
          exact List.getElem_mem hj
        constructor
        · intro _
          omega
        · intro _
          exact lt_of_lt_of_le (not_le.mp hax) (ha _ hmem)

omit [Inhabited α] in
theorem countP_le_split [LinearOrder α] (x : α) (l : List α) :
    l.countP (fun e => decide (e ≤ x)) =
      l.countP (fun e => decide (e < x)) + l.countP (fun e => decide (e = x)) := by
  induction l with
  | nil => rfl
  | cons a t ih =>
    simp only [List.countP_cons, ih]
    rcases lt_trichotomy a x with h | h | h
    · rw [if_pos (by simpa using le_of_lt h), if_pos (by simpa using h),
          if_neg (by simpa using ne_of_lt h)]
      omega
    · subst h
      rw [if_pos (by simp), if_neg (by simp), if_pos (by simp)]
      omega
    · rw [if_neg (by simpa using not_le.mpr h), if_neg (by simpa using not_lt.mpr (le_of_lt h)),
          if_neg (by simpa using ne_of_gt h)]
      omega

/-- C3: for every sorted sequence over a linearly ordered element type and
every queried value `x`, `is_majority_element` with the `std::less` comparator
agrees exactly with the direct count-based definition of majority:
the number of elements equal to `x` strictly exceeds `length/2`
(integer division). -/
theorem is_majority_element_count_spec [LinearOrder α] (l : List α) (x : α)
    (hs : l.Sorted (· ≤ ·)) :
    is_majority_element l x std_less =
      decide (l.length / 2 < l.countP fun e => decide (e = x)) := by
  have hlb : lower_bound l std_less x = l.countP (fun e => decide (e < x)) := by
    apply lbLoop_correct
    · exact Nat.le_refl _
    · exact Nat.zero_le _
    · simpa using List.countP_le_length (fun e => decide (e < x)) (l := l)
    · intro i h1 h2
      have hiff := sorted_lt_count x l hs i (by omega)
      simpa [std_less] using hiff
  have hub : upper_bound l std_less x = l.countP (fun e => decide (e ≤ x)) := by
    apply ubLoop_correct
    · exact Nat.le_refl _
    · exact Nat.zero_le _
    · simpa using List.countP_le_length (fun e => decide (e ≤ x)) (l := l)
    · intro i h1 h2
      have hiff := sorted_le_count x l hs i (by omega)
      constructor
      · intro hc
        exact (hiff.mp (by simpa [std_less] using hc))
      · intro hc
        simpa [std_less] using hiff.mpr hc
  have hshow : is_majority_element l x std_less =
      decide ((((equal_range l std_less x).2 : Int) - ((equal_range l std_less x).1 : Int)) >
        ((l.length : Int) / 2)) := rfl
  have her1 : (equal_range l std_less x).1 = l.countP (fun e => decide (e < x)) := hlb
  have her2 : (equal_range l std_less x).2 = l.countP (fun e => decide (e ≤ x)) := hub
  rw [hshow, her1, her2, countP_le_split]
  have harith :
      ((((l.countP fun e => decide (e < x)) + l.countP fun e => decide (e = x) : Nat) : Int) -
          ((l.countP fun e => decide (e < x) : Nat) : Int) > ((l.length : Int) / 2)) ↔
        (l.length / 2 < l.countP fun e => decide (e = x)) := by
    omega
  exact decide_eq_decide.mpr harith

theorem is_majority_element_count_spec_witness :
    (([1, 1, 1, 2, 2] : List Int).Sorted (· ≤ ·)) ∧
    is_majority_element ([1, 1, 1, 2, 2] : List Int) 1 std_less =
      decide (([1, 1, 1, 2, 2] : List Int).length / 2 <
        ([1, 1, 1, 2, 2] : List Int).countP fun e => decide (e = (1 : Int))) := by
  have hs : ([1, 1, 1, 2, 2] : List Int).Sorted (· ≤ ·) := by decide
  exact ⟨hs, is_majority_element_count_spec ([1, 1, 1, 2, 2] : List Int) 1 hs⟩

/-- C4: both functions use the strict floor-half threshold
`ntotal / 2 < nmatches` (integer division): `majority_element` returns a
non-sentinel result exactly when the confirmation count clears that
threshold; for every total `n` and match count `m`, `n / 2 < m` holds iff
`2 m > n`, so for odd totals it is exactly "more than half" and for even
totals a value occupying exactly half the positions is rejected; in
particular `is_majority_element([1,1,2,2,2], 1)` returns `false`. -/
theorem strict_half_threshold :
    (∀ (l : List α) (comp : α → α → Bool),
       (majority_element l comp ≠ l.length ↔
         l.length / 2 < l.countP fun b => comp (l.getD (bmVote l comp) default) b)) ∧
    (∀ n m : Nat, n / 2 < m ↔ n < 2 * m) ∧
    is_majority_element ([1, 1, 2, 2, 2] : List Int) 1 std_less = false := by
  refine ⟨?_, by intro n m; omega, by decide⟩
  intro l comp
  rw [majority_element_eq_ite]
  by_cases hthr : l.length / 2 < l.countP fun b => comp (l.getD (bmVote l comp) default) b
  · rw [if_pos hthr]
    constructor
    · intro _
      exact hthr
    · intro _
      have hpos : 0 < l.length := by
        have hcle := List.countP_le_length
          (fun b => comp (l.getD (bmVote l comp) default) b) (l := l)
        omega
      have hvl := bmVote_lt_length l comp hpos
      omega
  · rw [if_neg hthr]
    constructor
    · intro h
      exact absurd rfl h
    · intro h
      exact absurd h hthr

theorem strict_half_threshold_witness :
    majority_element ([1, 1, 2] : List Int) std_equal_to ≠ ([1, 1, 2] : List Int).length ↔
      ([1, 1, 2] : List Int).length / 2 <
        ([1, 1, 2] : List Int).countP fun b =>
          std_equal_to
            (([1, 1, 2] : List Int).getD (bmVote ([1, 1, 2] : List Int) std_equal_to) default) b :=
  strict_half_threshold.1 ([1, 1, 2] : List Int) std_equal_to

end MajorityElement
